import Mathlib

set_option maxHeartbeats 1000000

/-!
Verification of the labyrinthium generator core (src/main.rs): maze model,
depth-first search, path reconstruction, and document export.  Pure shallow
embedding: the process-aborting faults of the source are modelled as none,
the recoverable I/O tier stays outside the pure model.
-/

namespace Labyrinthium

/-- A position in the grid: (row, column), zero-indexed. -/
abbrev Pos := Nat × Nat

/-- The maze model of the source: struct Maze with rows, cols, data. -/
structure Maze where
  rows : Nat
  cols : Nat
  data : List (List Char)

/-- Reading a cell of the grid, as the source's maze.data[r][c].  The source
indexes only after checking r against rows and c against cols; for rectangular
mazes (the data-model invariant, carried by every theorem that needs it) every
such access hits a real entry, so the out-of-range default chosen here is
never consulted. -/
def cellAt (m : Maze) (p : Pos) : Char :=
  (m.data.getD p.1 []).getD p.2 '#'

/-- The data-model invariant of the spec: the grid is rectangular and its
dimensions are the recorded rows and cols. -/
def Rect (m : Maze) : Prop :=
  m.data.length = m.rows ∧ ∀ row ∈ m.data, row.length = m.cols

instance (m : Maze) : Decidable (Rect m) := by
  unfold Rect; infer_instance

/-- The four legal cell symbols. -/
def legalSymbols : List Char := ['S', 'G', '.', '#']

/-- First index of the symbol t in a row: the inner enumerate loop of
find_start, and row.iter().position in the goal scan of create_json_file. -/
def findSym (t : Char) : List Char → Option Nat
  | [] => none
  | c :: rest => if c = t then some 0 else (findSym t rest).map (· + 1)

/-- Row-by-row scan of the grid, top to bottom: (row, column) of the first
cell holding the symbol t, in top-to-bottom then left-to-right order.  This
is the loop shape shared by find_start and by the goal scan of
create_json_file. -/
def scanGrid (t : Char) : List (List Char) → Option Pos
  | [] => none
  | row :: rest =>
    match findSym t row with
    | some j => some (0, j)
    | none => (scanGrid t rest).map (fun p => (p.1 + 1, p.2))

/-- find_start of the source.  The source returns (i, j) from inside the
loop; falling off the end aborts the process with the missing-start fault,
modelled as none. -/
def find_start (m : Maze) : Option Pos :=
  scanGrid 'S' m.data

/-- The goal scan of create_json_file: find_map over enumerated rows of
row.iter().position for 'G'; yields (x, y) = (column, row).  The source
unwraps the result, aborting when no goal cell exists; modelled as none. -/
def find_goal_aux (data : List (List Char)) : Option (Nat × Nat) :=
  (scanGrid 'G' data).map (fun p => (p.2, p.1))

/-- The line loop of read_maze_from_file: for each line, cols is overwritten
with that line's character count, the characters become a new row of data,
and rows is incremented. -/
def readLoop : List String → Maze → Maze
  | [], m => m
  | line :: rest, m =>
    readLoop rest ⟨m.rows + 1, line.length, m.data ++ [line.data]⟩

/-- read_maze_from_file, taking the lines the buffered reader yields (file
opening and mid-stream read failures are the recoverable I/O tier, outside
the pure model: the claims about this function assume a readable source). -/
def read_maze_from_file (lines : List String) : Maze :=
  readLoop lines ⟨0, 0, []⟩

/-- The four neighbor offsets of solve_maze, in the source's generation
order: up (row-1), down (row+1), left (col-1), right (col+1). -/
def dirs : List (Int × Int) := [(-1, 0), (1, 0), (0, -1), (0, 1)]

/-- The neighbor test of solve_maze: new_row and new_col as signed sums, the
four bounds checks against rows and cols, and the wall test; yields the
neighbor when every check passes. -/
def tryMove (m : Maze) (p : Pos) (d : Int × Int) : Option Pos :=
  if 0 ≤ (p.1 : Int) + d.1 ∧ (p.1 : Int) + d.1 < (m.rows : Int) ∧
      0 ≤ (p.2 : Int) + d.2 ∧ (p.2 : Int) + d.2 < (m.cols : Int) ∧
      cellAt m (((p.1 : Int) + d.1).toNat, ((p.2 : Int) + d.2).toNat) ≠ '#' then
    some (((p.1 : Int) + d.1).toNat, ((p.2 : Int) + d.2).toNat)
  else
    none

/-- The mutable state of solve_maze: the LIFO frontier (head = back of the
VecDeque, the next pop), the visited set as a list in reverse insertion order
(head = most recently visited), and the predecessor map as an association
list (head = most recent insertion; lookup takes the newest binding, matching
HashMap semantics). -/
structure SearchState where
  stack : List Pos
  visited : List Pos
  parents : List (Pos × Pos)

/-- HashMap::get over the association-list model: the most recent binding of
the key wins. -/
def lookupP : List (Pos × Pos) → Pos → Option Pos
  | [], _ => none
  | (k, v) :: rest, q => if k = q then some v else lookupP rest q

/-- One iteration of the neighbor for-loop body of solve_maze: a candidate
passing the bounds, wall, and not-yet-visited tests is pushed onto the
frontier, marked visited at push time, and records the popped cell as its
predecessor. -/
def pushOne (m : Maze) (cur : Pos) (s : SearchState) (d : Int × Int) : SearchState :=
  match tryMove m cur d with
  | none => s
  | some q =>
    if q ∈ s.visited then s
    else ⟨q :: s.stack, q :: s.visited, (q, cur) :: s.parents⟩

/-- The whole neighbor for-loop: the four directions in generation order. -/
def pushNeighbors (m : Maze) (cur : Pos) (s : SearchState) : SearchState :=
  dirs.foldl (pushOne m cur) s

/-- The backward walk of construct_path: follow predecessors from the goal
until a position with no recorded predecessor.  The source's while-let loop
carries no bound; the fuel parameter models it, and the development proves
that on every predecessor map the search builds, fuel parents.length is
enough and extra fuel never changes the result. -/
def chainFrom (parents : List (Pos × Pos)) : Nat → Pos → List Pos
  | 0, cur => [cur]
  | fuel + 1, cur =>
    match lookupP parents cur with
    | none => [cur]
    | some par => cur :: chainFrom parents fuel par

/-- construct_path of the source: walk backward from the goal collecting
positions, then reverse so the route reads start to goal. -/
def construct_path (goal : Pos) (parents : List (Pos × Pos)) : List Pos :=
  (chainFrom parents parents.length goal).reverse

/-- Every in-bounds position of the grid, row-major. -/
def allCells (m : Maze) : List Pos :=
  (List.range m.rows).flatMap (fun r => (List.range m.cols).map (fun c => (r, c)))

/-- Termination measure of the search loop: unvisited in-bounds cells plus
frontier size.  Each iteration pops one entry and pushes only cells that were
in bounds and unvisited, so the measure drops by exactly one. -/
def dfsMeasure (m : Maze) (s : SearchState) : Nat :=
  ((allCells m).toFinset \ s.visited.toFinset).card + s.stack.length

/-- The while-let loop of solve_maze: pop the back of the frontier; a popped
goal cell ends the search with the reconstructed path; otherwise expand the
popped cell and continue; an empty frontier means no route. -/
def dfsLoop (m : Maze) (s : SearchState) : Option (List Pos) :=
  match s with
  | ⟨[], _, _⟩ => none
  | ⟨cur :: rest, visited, parents⟩ =>
    if cellAt m cur = 'G' then some (construct_path cur parents)
    else dfsLoop m (pushNeighbors m cur ⟨rest, visited, parents⟩)
termination_by dfsMeasure m s
decreasing_by
  have key : ∀ (t : SearchState) (d : Int × Int),
      dfsMeasure m (pushOne m cur t d) = dfsMeasure m t := by
    intro t d
    cases htm : tryMove m cur d with
    | none => simp [pushOne, htm]
    | some q =>
      by_cases hq : q ∈ t.visited
      · simp [pushOne, htm, hq]
      · have hb : q.1 < m.rows ∧ q.2 < m.cols := by
          simp only [tryMove] at htm
          split at htm
          · rename_i hc
            obtain ⟨h1, h2, h3, h4, -⟩ := hc
            cases htm
            exact ⟨by omega, by omega⟩
          · exact absurd htm (by simp)
        have hqA : q ∈ allCells m := by
          unfold allCells
          rw [List.mem_flatMap]
          exact ⟨q.1, List.mem_range.mpr hb.1,
            List.mem_map.mpr ⟨q.2, List.mem_range.mpr hb.2, rfl⟩⟩
        have hmem : q ∈ (allCells m).toFinset \ t.visited.toFinset := by
          rw [Finset.mem_sdiff]
          exact ⟨List.mem_toFinset.mpr hqA, fun hx => hq (List.mem_toFinset.mp hx)⟩
        have hcard : 0 < ((allCells m).toFinset \ t.visited.toFinset).card :=
          Finset.card_pos.mpr ⟨q, hmem⟩
        have hset : (allCells m).toFinset \ (q :: t.visited).toFinset
            = ((allCells m).toFinset \ t.visited.toFinset).erase q := by
          ext x
          simp only [List.toFinset_cons, Finset.mem_sdiff, Finset.mem_erase,
            Finset.mem_insert, List.mem_toFinset]
          tauto
        simp only [pushOne, htm]
        rw [if_neg hq]
        simp only [dfsMeasure]
        rw [hset, Finset.card_erase_of_mem hmem]
        simp only [List.length_cons]
        omega
  have hpn : dfsMeasure m (pushNeighbors m cur ⟨rest, visited, parents⟩)
      = dfsMeasure m ⟨rest, visited, parents⟩ := by
    simp only [pushNeighbors, dirs, List.foldl_cons, List.foldl_nil, key]
  rw [hpn]
  simp only [dfsMeasure, List.length_cons]
  omega

/-- The initial search state: the frontier seeded with the start, the start
marked visited at enqueue time, no predecessor recorded. -/
def initState (st : Pos) : SearchState :=
  ⟨[st], [st], []⟩

/-- solve_maze.  The source first calls find_start, which aborts the process
when no start cell exists; that fatal fault is the outer none.  The inner
option is solve_maze's own return: some route, or none when the frontier
empties without popping a goal cell. -/
def solve_maze (m : Maze) : Option (Option (List Pos)) :=
  (find_start m).map (fun st => dfsLoop m (initState st))

/-- The exporter's cell classifier: the match inside create_json_file.  The
catch-all arm aborts the process (unknown cell type); modelled as none. -/
def classifyCell (c : Char) : Option Nat :=
  if c = 'S' then some 0
  else if c = 'G' then some 1
  else if c = '.' then some 2
  else if c = '#' then some 3
  else none

/-- Modelled from the spec: the decoder of classification codes back to
symbols.  The repository has no decoder; the spec's round-trip property and
its table (S with 0, G with 1, open dot with 2, wall with 3) define it. -/
def decodeCell (t : Nat) : Option Char :=
  if t = 0 then some 'S'
  else if t = 1 then some 'G'
  else if t = 2 then some '.'
  else if t = 3 then some '#'
  else none

/-- Re-derive the classification code of each cell of a row and decode it
back to a symbol (the spec's round-trip). -/
def recodeRow : List Char → Option (List Char)
  | [] => some []
  | c :: rest =>
    match (classifyCell c).bind decodeCell with
    | none => none
    | some c2 => (recodeRow rest).map (fun l => c2 :: l)

/-- The round-trip over a whole grid. -/
def recodeGrid : List (List Char) → Option (List (List Char))
  | [] => some []
  | row :: rest =>
    match recodeRow row with
    | none => none
    | some r2 => (recodeGrid rest).map (fun g => r2 :: g)

/-- The serialized cell entry: x the column, y the row, and the
classification code (the field serde renames to type). -/
structure Cell where
  x : Nat
  y : Nat
  cell_type : Nat

/-- The serialized coordinate pair: x the column, y the row. -/
structure Position where
  x : Nat
  y : Nat

/-- The document create_json_file builds, before serde serialization. -/
structure MazeJson where
  width : Nat
  height : Nat
  start : Position
  goal : Position
  maze : List Cell
  solution : List Position

/-- The inner enumerate-map of the cell listing, with x the running column
index: one Cell per character, aborting on an illegal symbol. -/
def rowCells (y : Nat) : Nat → List Char → Option (List Cell)
  | _, [] => some []
  | x, c :: rest =>
    match classifyCell c with
    | none => none
    | some t => (rowCells y (x + 1) rest).map (fun l => ⟨x, y, t⟩ :: l)

/-- The outer enumerate-flat_map of the cell listing, with y the running row
index. -/
def gridCells : Nat → List (List Char) → Option (List Cell)
  | _, [] => some []
  | y, row :: rest =>
    match rowCells y 0 row with
    | none => none
    | some a =>
      match gridCells (y + 1) rest with
      | none => none
      | some b => some (a ++ b)

/-- create_json_file, up to serialization: builds the document, or none when
one of the source's aborts fires (an illegal symbol in the cell listing, a
missing start in find_start, a missing goal in the unwrap of the goal scan).
Route entries destructure a (row, column) pair into y and x.  The serde
serialization and the file write (the recoverable I/O tier) stay outside the
pure model. -/
def create_json_file (width height : Nat) (m : Maze) (solution : List Pos) :
    Option MazeJson :=
  match gridCells 0 m.data with
  | none => none
  | some cells =>
    match find_start m with
    | none => none
    | some st =>
      match find_goal_aux m.data with
      | none => none
      | some gl =>
        some ⟨width, height, ⟨st.2, st.1⟩, ⟨gl.1, gl.2⟩, cells,
          solution.map (fun p => ⟨p.2, p.1⟩)⟩

/-- A single valid move of the search: some direction of the generation order
takes p to q. -/
def stepOk (m : Maze) (p q : Pos) : Prop :=
  ∃ d ∈ dirs, tryMove m p d = some q

/-- Reachability through valid moves. -/
inductive Reaches (m : Maze) : Pos → Pos → Prop
  | refl (p : Pos) : Reaches m p p
  | tail {p q r : Pos} : Reaches m p q → stepOk m q r → Reaches m p r

/-- The claim's adjacency: the two positions differ by exactly one unit in
exactly one axis. -/
def AdjacentPos (p q : Pos) : Prop :=
  (p.1 = q.1 ∧ (p.2 + 1 = q.2 ∨ q.2 + 1 = p.2)) ∨
  (p.2 = q.2 ∧ (p.1 + 1 = q.1 ∨ q.1 + 1 = p.1))

/-- Spec wording of a generated neighbor: the coordinates offset by the
direction, as integers (so a step off the top or left edge matches no Pos). -/
def specNeighbor (cur : Pos) (d : Int × Int) (q : Pos) : Prop :=
  (cur.1 : Int) + d.1 = (q.1 : Int) ∧ (cur.2 : Int) + d.2 = (q.2 : Int)

/-- Spec wording of the frontier-push test, visited test apart: the neighbor
is within grid bounds and its symbol is not Wall. -/
def specEligibleMove (m : Maze) (cur : Pos) (d : Int × Int) (q : Pos) : Prop :=
  specNeighbor cur d q ∧ q.1 < m.rows ∧ q.2 < m.cols ∧ cellAt m q ≠ '#'

/-- One iteration of the search loop as a relation on states. -/
def stepState (m : Maze) (s t : SearchState) : Prop :=
  ∃ cur rest, s.stack = cur :: rest ∧ cellAt m cur ≠ 'G' ∧
    t = pushNeighbors m cur ⟨rest, s.visited, s.parents⟩

/-- The states the loop of solve_maze passes through when seeded at st. -/
def ReachableState (m : Maze) (st : Pos) (s : SearchState) : Prop :=
  Relation.ReflTransGen (stepState m) (initState st) s

/-- Index of the first occurrence of p in a list of positions. -/
def rankOf : List Pos → Pos → Nat
  | [], _ => 0
  | a :: l, p => if a = p then 0 else rankOf l p + 1

/-- The part of the loop invariant a single frontier push preserves: the
frontier holds visited cells without repetition; every visited cell is
reachable from the start and (start apart) not a wall; the predecessor map
binds exactly the visited non-start cells, each bound to a valid-move
predecessor that was marked visited strictly earlier (higher rank in the
newest-first visited list). -/
structure PreInv (m : Maze) (st : Pos) (s : SearchState) : Prop where
  stack_sub : ∀ p ∈ s.stack, p ∈ s.visited
  stack_nodup : s.stack.Nodup
  visited_nodup : s.visited.Nodup
  start_mem : st ∈ s.visited
  start_last : s.visited.getLast? = some st
  reach : ∀ p ∈ s.visited, Reaches m st p
  nonwall : ∀ p ∈ s.visited, p = st ∨ cellAt m p ≠ '#'
  len_eq : s.parents.length + 1 = s.visited.length
  parent_total : ∀ p ∈ s.visited, p ≠ st → lookupP s.parents p ≠ none
  start_no_parent : lookupP s.parents st = none
  parent_spec : ∀ k v, lookupP s.parents k = some v →
    stepOk m v k ∧ k ∈ s.visited ∧ v ∈ s.visited ∧
    rankOf s.visited k < rankOf s.visited v

/-- The full loop invariant: additionally, every visited cell no longer on
the frontier has been expanded (all its valid moves lead to visited cells)
and was not a goal cell when popped. -/
structure Inv (m : Maze) (st : Pos) (s : SearchState) extends PreInv m st s : Prop where
  closed : ∀ p ∈ s.visited, p ∉ s.stack → ∀ q, stepOk m p q → q ∈ s.visited
  popped_ngoal : ∀ p ∈ s.visited, p ∉ s.stack → cellAt m p ≠ 'G'

theorem dfsLoop_nil (m : Maze) (v : List Pos) (par : List (Pos × Pos)) :
    dfsLoop m ⟨[], v, par⟩ = none := by
  rw [dfsLoop]

theorem dfsLoop_cons (m : Maze) (cur : Pos) (rest v : List Pos)
    (par : List (Pos × Pos)) :
    dfsLoop m ⟨cur :: rest, v, par⟩ =
      if cellAt m cur = 'G' then some (construct_path cur par)
      else dfsLoop m (pushNeighbors m cur ⟨rest, v, par⟩) := by
  rw [dfsLoop]

theorem getD_as_get? {α : Type} (l : List α) (n : Nat) (d : α) :
    l.getD n d = (l.get? n).getD d := by
  induction l generalizing n with
  | nil => cases n <;> rfl
  | cons a t ih => cases n with
    | zero => rfl
    | succ k => simpa using ih k

theorem rankOf_cons_self (a : Pos) (l : List Pos) : rankOf (a :: l) a = 0 := by
  simp [rankOf]

theorem rankOf_cons_ne {a p : Pos} (l : List Pos) (h : a ≠ p) :
    rankOf (a :: l) p = rankOf l p + 1 := by
  simp [rankOf, h]

theorem rankOf_lt_length {l : List Pos} {p : Pos} (h : p ∈ l) :
    rankOf l p < l.length := by
  induction l with
  | nil => cases h
  | cons a t ih =>
    by_cases ha : a = p
    · simp [rankOf, ha]
    · rcases List.mem_cons.mp h with h1 | h1
      · exact absurd h1.symm ha
      · simpa [rankOf, ha] using ih h1

theorem get?_rankOf {l : List Pos} {p : Pos} (h : p ∈ l) :
    l.get? (rankOf l p) = some p := by
  induction l with
  | nil => cases h
  | cons a t ih =>
    by_cases ha : a = p
    · simp [rankOf, ha]
    · rcases List.mem_cons.mp h with h1 | h1
      · exact absurd h1.symm ha
      · simpa [rankOf, ha] using ih h1

theorem rankOf_inj {l : List Pos} {p q : Pos} (hp : p ∈ l) (hq : q ∈ l)
    (h : rankOf l p = rankOf l q) : p = q := by
  have h1 := get?_rankOf hp
  have h2 := get?_rankOf hq
  rw [h] at h1
  exact Option.some_injective _ (h1.symm.trans h2)

theorem rankOf_getLast {l : List Pos} {p : Pos} (hnd : l.Nodup)
    (hl : l.getLast? = some p) : rankOf l p + 1 = l.length := by
  induction l with
  | nil => simp at hl
  | cons a t ih =>
    cases t with
    | nil =>
      simp only [List.getLast?_singleton, Option.some.injEq] at hl
      simp [rankOf, hl]
    | cons b u =>
      rw [List.getLast?_cons_cons] at hl
      have hmem : p ∈ b :: u := by
        rcases List.mem_getLast?_eq_getLast (show p ∈ (b :: u).getLast? from hl) with
          ⟨hne, hpe⟩
        rw [hpe]
        exact List.getLast_mem hne
      have hane : a ≠ p := by
        intro hap
        exact (List.nodup_cons.mp hnd).1 (hap ▸ hmem)
      rw [rankOf_cons_ne _ hane, ih (List.nodup_cons.mp hnd).2 hl]
      simp

theorem findSym_eq_none_iff {t : Char} {row : List Char} :
    findSym t row = none ↔ ∀ c ∈ row, c ≠ t := by
  induction row with
  | nil => simp [findSym]
  | cons c rest ih =>
    by_cases hc : c = t
    · simp [findSym, hc]
    · simp [findSym, hc, ih]

theorem findSym_eq_some_iff {t : Char} {row : List Char} {j : Nat} :
    findSym t row = some j ↔
      row.get? j = some t ∧ ∀ i < j, row.get? i ≠ some t := by
  induction row generalizing j with
  | nil => simp [findSym]
  | cons c rest ih =>
    by_cases hc : c = t
    · subst hc
      constructor
      · intro h
        have hj : j = 0 := by
          have h0 : some 0 = some j := by simpa [findSym] using h
          have h1 : 0 = j := by simpa using h0
          exact h1.symm
        subst hj
        simp
      · intro ⟨h1, h2⟩
        have hj : j = 0 := by
          by_contra hj
          exact h2 0 (Nat.pos_of_ne_zero hj) (by simp)
        subst hj
        simp [findSym]
    · simp only [findSym, if_neg hc]
      constructor
      · intro h
        rcases Option.map_eq_some'.mp h with ⟨j', hj', rfl⟩
        rcases ih.mp hj' with ⟨h1, h2⟩
        refine ⟨by simpa using h1, ?_⟩
        intro i hi
        cases i with
        | zero => simpa using fun h => hc h
        | succ k =>
          have := h2 k (by omega)
          simpa using this
      · intro ⟨h1, h2⟩
        cases j with
        | zero =>
          simp only [List.get?_cons_zero, Option.some.injEq] at h1
          exact absurd h1 hc
        | succ k =>
          rw [show findSym t rest = some k from ?_]
          · rfl
          · refine ih.mpr ⟨by simpa using h1, ?_⟩
            intro i hi
            have := h2 (i + 1) (by omega)
            simpa using this

theorem scanGrid_eq_none_iff {t : Char} {data : List (List Char)} :
    scanGrid t data = none ↔ ∀ row ∈ data, ∀ c ∈ row, c ≠ t := by
  induction data with
  | nil => simp [scanGrid]
  | cons row rest ih =>
    cases hf : findSym t row with
    | some j =>
      simp only [scanGrid, hf]
      constructor
      · intro h
        simp at h
      · intro h
        have := findSym_eq_none_iff.mpr (h row (by simp))
        rw [hf] at this
        simp at this
    | none =>
      have hrow := findSym_eq_none_iff.mp hf
      simp only [scanGrid, hf]
      constructor
      · intro h
        intro r hr
        rcases List.mem_cons.mp hr with h1 | h1
        · exact h1 ▸ hrow
        · exact (ih.mp (by simpa using h)) r h1
      · intro h
        have := ih.mpr (fun r hr => h r (List.mem_cons_of_mem _ hr))
        simp [this]

theorem scanGrid_eq_some_iff {t : Char} {data : List (List Char)} {p : Pos} :
    scanGrid t data = some p ↔
      (data.getD p.1 []).get? p.2 = some t ∧
      (∀ j < p.2, (data.getD p.1 []).get? j ≠ some t) ∧
      (∀ i < p.1, ∀ c ∈ data.getD i [], c ≠ t) := by
  induction data generalizing p with
  | nil =>
    rcases p with ⟨p1, p2⟩
    simp [scanGrid, List.getD]
  | cons row rest ih =>
    rcases p with ⟨p1, p2⟩
    cases hf : findSym t row with
    | some j =>
      rcases findSym_eq_some_iff.mp hf with ⟨hg, hlt⟩
      have hmem : t ∈ row := by
        rcases List.get?_eq_some.mp hg with ⟨hb, he⟩
        exact he ▸ List.get_mem row _ _
      simp only [scanGrid, hf, Option.some.injEq]
      constructor
      · intro h
        cases h
        exact ⟨by simpa using hg, by simpa using hlt, by omega⟩
      · intro ⟨h1, h2, h3⟩
        cases p1 with
        | zero =>
          have hj : findSym t row = some p2 :=
            findSym_eq_some_iff.mpr ⟨by simpa using h1, by simpa using h2⟩
          rw [hf] at hj
          simp only [Option.some.injEq] at hj
          simp [hj]
        | succ k =>
          have h0 := h3 0 (by omega) t (by simpa using hmem)
          exact absurd rfl h0
    | none =>
      have hrow := findSym_eq_none_iff.mp hf
      simp only [scanGrid, hf]
      constructor
      · intro h
        rcases Option.map_eq_some'.mp h with ⟨q, hq, hqe⟩
        rcases ih.mp hq with ⟨h1, h2, h3⟩
        cases hqe
        refine ⟨by simpa using h1, by simpa using h2, ?_⟩
        intro i hi
        cases i with
        | zero => simpa using hrow
        | succ k =>
          have := h3 k (by omega)
          simpa using this
      · intro ⟨h1, h2, h3⟩
        cases p1 with
        | zero =>
          simp only [List.getD] at h1
          have : t ∈ row := by
            rcases List.get?_eq_some.mp h1 with ⟨hb, he⟩
            exact he ▸ List.get_mem row _ _
          exact absurd (hrow t this) (by simp)
        | succ k =>
          have : scanGrid t rest = some (k, p2) := by
            refine ih.mpr ⟨by simpa using h1, by simpa using h2, ?_⟩
            intro i hi
            have := h3 (i + 1) (by omega)
            simpa using this
          simp [this]

theorem mem_allCells {m : Maze} {p : Pos} :
    p ∈ allCells m ↔ p.1 < m.rows ∧ p.2 < m.cols := by
  rcases p with ⟨a, b⟩
  unfold allCells
  constructor
  · intro h
    rcases List.mem_flatMap.mp h with ⟨r, hr, hmem⟩
    rcases List.mem_map.mp hmem with ⟨c, hc, he⟩
    cases he
    exact ⟨List.mem_range.mp hr, List.mem_range.mp hc⟩
  · intro ⟨h1, h2⟩
    exact List.mem_flatMap.mpr
      ⟨a, List.mem_range.mpr h1, List.mem_map.mpr ⟨b, List.mem_range.mpr h2, rfl⟩⟩

theorem getD_oob {α : Type} (l : List α) (n : Nat) (d : α) (h : l.length ≤ n) :
    l.getD n d = d := by
  rw [getD_as_get?, List.get?_eq_none.mpr h]
  rfl

theorem getD_mem {α : Type} {l : List α} {n : Nat} (d : α) (h : n < l.length) :
    l.getD n d ∈ l := by
  rw [getD_as_get?, List.get?_eq_get h]
  exact List.get_mem l _ _

theorem cellAt_not_wall_bounds {m : Maze} {p : Pos} (h : cellAt m p ≠ '#') :
    p.1 < m.data.length ∧ p.2 < (m.data.getD p.1 []).length := by
  have h1 : p.1 < m.data.length := by
    by_contra hb
    push_neg at hb
    apply h
    unfold cellAt
    rw [getD_oob _ _ _ hb]
    rfl
  refine ⟨h1, ?_⟩
  by_contra hb
  push_neg at hb
  exact h (getD_oob _ _ _ hb)

theorem cellAt_mem_allCells {m : Maze} (hr : Rect m) {p : Pos}
    (h : cellAt m p ≠ '#') : p ∈ allCells m := by
  rcases cellAt_not_wall_bounds h with ⟨h1, h2⟩
  rcases hr with ⟨hlen, hrow⟩
  refine mem_allCells.mpr ⟨hlen ▸ h1, ?_⟩
  have hm : m.data.getD p.1 [] ∈ m.data := getD_mem _ h1
  rw [← hrow _ hm]
  exact h2

theorem cellAt_eq_of_get? {m : Maze} {p : Pos} {c : Char}
    (h : (m.data.getD p.1 []).get? p.2 = some c) : cellAt m p = c := by
  unfold cellAt
  rw [getD_as_get?, h]
  rfl

theorem getD_get?_of_lt {α : Type} (l : List α) (n : Nat) (d : α)
    (h : n < l.length) : l.get? n = some (l.getD n d) := by
  rw [List.get?_eq_get h, getD_as_get?, List.get?_eq_get h]
  rfl

theorem get?_of_cellAt {m : Maze} {p : Pos} (h : cellAt m p ≠ '#') :
    (m.data.getD p.1 []).get? p.2 = some (cellAt m p) := by
  have h2 := (cellAt_not_wall_bounds h).2
  exact getD_get?_of_lt _ p.2 '#' h2

theorem find_start_spec {m : Maze} {p : Pos} (h : find_start m = some p) :
    cellAt m p = 'S' ∧ p.1 < m.data.length := by
  rcases scanGrid_eq_some_iff.mp h with ⟨h1, _, _⟩
  refine ⟨cellAt_eq_of_get? h1, ?_⟩
  by_contra hb
  push_neg at hb
  rw [getD_oob _ _ _ hb] at h1
  simp at h1

theorem find_start_isSome {m : Maze} {p : Pos} (h : cellAt m p = 'S') :
    ∃ q, find_start m = some q ∧ cellAt m q = 'S' := by
  have hw : cellAt m p ≠ '#' := by
    rw [h]
    decide
  rcases cellAt_not_wall_bounds hw with ⟨h1, h2⟩
  cases hq : find_start m with
  | some q => exact ⟨q, rfl, (find_start_spec hq).1⟩
  | none =>
    exfalso
    have hnone := scanGrid_eq_none_iff.mp hq
    have hrowmem : m.data.getD p.1 [] ∈ m.data := getD_mem _ h1
    have hcmem : cellAt m p ∈ m.data.getD p.1 [] := by
      show (m.data.getD p.1 []).getD p.2 '#' ∈ m.data.getD p.1 []
      exact getD_mem _ h2
    exact hnone _ hrowmem _ hcmem h

theorem find_goal_spec {data : List (List Char)} {x y : Nat}
    (h : find_goal_aux data = some (x, y)) :
    (data.getD y []).get? x = some 'G' := by
  unfold find_goal_aux at h
  rcases Option.map_eq_some'.mp h with ⟨q, hq, hqe⟩
  rcases scanGrid_eq_some_iff.mp hq with ⟨h1, _, _⟩
  have hx : q.2 = x := congrArg Prod.fst hqe
  have hy : q.1 = y := congrArg Prod.snd hqe
  rw [← hx, ← hy]
  exact h1

theorem find_goal_isSome {m : Maze} {p : Pos} (h : cellAt m p = 'G') :
    ∃ x y, find_goal_aux m.data = some (x, y) := by
  have hw : cellAt m p ≠ '#' := by
    rw [h]
    decide
  rcases cellAt_not_wall_bounds hw with ⟨h1, h2⟩
  cases hq : scanGrid 'G' m.data with
  | some q => exact ⟨q.2, q.1, by simp [find_goal_aux, hq]⟩
  | none =>
    exfalso
    have hnone := scanGrid_eq_none_iff.mp hq
    have hrowmem : m.data.getD p.1 [] ∈ m.data := getD_mem _ h1
    have hcmem : cellAt m p ∈ m.data.getD p.1 [] := by
      show (m.data.getD p.1 []).getD p.2 '#' ∈ m.data.getD p.1 []
      exact getD_mem _ h2
    exact hnone _ hrowmem _ hcmem h

theorem tryMove_eq_some_iff {m : Maze} {cur : Pos} {d : Int × Int} {q : Pos} :
    tryMove m cur d = some q ↔ specEligibleMove m cur d q := by
  unfold tryMove specEligibleMove specNeighbor
  constructor
  · intro h
    split at h
    · rename_i hc
      obtain ⟨h1, h2, h3, h4, h5⟩ := hc
      cases h
      refine ⟨⟨?_, ?_⟩, ?_, ?_, h5⟩ <;> omega
    · simp at h
  · intro ⟨⟨e1, e2⟩, hb1, hb2, hw⟩
    have h1 : 0 ≤ (cur.1 : Int) + d.1 := by omega
    have h2 : (cur.1 : Int) + d.1 < (m.rows : Int) := by omega
    have h3 : 0 ≤ (cur.2 : Int) + d.2 := by omega
    have h4 : (cur.2 : Int) + d.2 < (m.cols : Int) := by omega
    have hq1 : ((cur.1 : Int) + d.1).toNat = q.1 := by omega
    have hq2 : ((cur.2 : Int) + d.2).toNat = q.2 := by omega
    rw [if_pos]
    · rw [hq1, hq2]
    · rw [hq1, hq2]
      exact ⟨h1, h2, h3, h4, hw⟩

theorem tryMove_bounds {m : Maze} {cur : Pos} {d : Int × Int} {q : Pos}
    (h : tryMove m cur d = some q) :
    q.1 < m.rows ∧ q.2 < m.cols ∧ cellAt m q ≠ '#' := by
  rcases tryMove_eq_some_iff.mp h with ⟨_, hb1, hb2, hw⟩
  exact ⟨hb1, hb2, hw⟩

theorem stepOk_adjacent {m : Maze} {p q : Pos} (h : stepOk m p q) :
    AdjacentPos p q := by
  rcases h with ⟨d, hd, hm⟩
  rcases tryMove_eq_some_iff.mp hm with ⟨⟨e1, e2⟩, _, _, _⟩
  simp only [dirs, List.mem_cons, List.not_mem_nil, or_false] at hd
  unfold AdjacentPos
  rcases hd with rfl | rfl | rfl | rfl
  · simp only at e1 e2
    exact Or.inr ⟨by omega, Or.inr (by omega)⟩
  · simp only at e1 e2
    exact Or.inr ⟨by omega, Or.inl (by omega)⟩
  · simp only at e1 e2
    exact Or.inl ⟨by omega, Or.inr (by omega)⟩
  · simp only at e1 e2
    exact Or.inl ⟨by omega, Or.inl (by omega)⟩

theorem getLast?_cons_of_ne_nil {α : Type} (a : α) {l : List α} (h : l ≠ []) :
    (a :: l).getLast? = l.getLast? := by
  cases l with
  | nil => exact absurd rfl h
  | cons b u => exact List.getLast?_cons_cons

theorem pushOne_none {m : Maze} {cur : Pos} {s : SearchState} {d : Int × Int}
    (h : tryMove m cur d = none) : pushOne m cur s d = s := by
  simp [pushOne, h]

theorem pushOne_visited {m : Maze} {cur : Pos} {s : SearchState} {d : Int × Int}
    {q : Pos} (h : tryMove m cur d = some q) (hq : q ∈ s.visited) :
    pushOne m cur s d = s := by
  simp [pushOne, h, hq]

theorem pushOne_push {m : Maze} {cur : Pos} {s : SearchState} {d : Int × Int}
    {q : Pos} (h : tryMove m cur d = some q) (hq : q ∉ s.visited) :
    pushOne m cur s d = ⟨q :: s.stack, q :: s.visited, (q, cur) :: s.parents⟩ := by
  simp [pushOne, h, hq]

theorem pushOne_cases (m : Maze) (cur : Pos) (s : SearchState) (d : Int × Int) :
    pushOne m cur s d = s ∨
    ∃ q, tryMove m cur d = some q ∧ q ∉ s.visited ∧
      pushOne m cur s d = ⟨q :: s.stack, q :: s.visited, (q, cur) :: s.parents⟩ := by
  cases htm : tryMove m cur d with
  | none => exact Or.inl (pushOne_none htm)
  | some q =>
    by_cases hq : q ∈ s.visited
    · exact Or.inl (pushOne_visited htm hq)
    · exact Or.inr ⟨q, rfl, hq, pushOne_push htm hq⟩

theorem pushOne_visited_mono {m : Maze} {cur : Pos} {s : SearchState}
    {d : Int × Int} {p : Pos} (h : p ∈ s.visited) :
    p ∈ (pushOne m cur s d).visited := by
  rcases pushOne_cases m cur s d with he | ⟨q, _, _, he⟩ <;> rw [he]
  · exact h
  · exact List.mem_cons_of_mem _ h

theorem pushOne_stack_mono {m : Maze} {cur : Pos} {s : SearchState}
    {d : Int × Int} {p : Pos} (h : p ∈ s.stack) :
    p ∈ (pushOne m cur s d).stack := by
  rcases pushOne_cases m cur s d with he | ⟨q, _, _, he⟩ <;> rw [he]
  · exact h
  · exact List.mem_cons_of_mem _ h

theorem pushOne_visited_sub {m : Maze} {cur : Pos} {s : SearchState}
    {d : Int × Int} {p : Pos} (h : p ∈ (pushOne m cur s d).visited) :
    p ∈ s.visited ∨ p ∈ (pushOne m cur s d).stack := by
  rcases pushOne_cases m cur s d with he | ⟨q, _, _, he⟩ <;> rw [he] at h ⊢
  · exact Or.inl h
  · rcases List.mem_cons.mp h with rfl | h1
    · exact Or.inr (List.mem_cons_self _ _)
    · exact Or.inl h1

theorem pushOne_tryMove_visited {m : Maze} {cur : Pos} {s : SearchState}
    {d : Int × Int} {q : Pos} (h : tryMove m cur d = some q) :
    q ∈ (pushOne m cur s d).visited := by
  by_cases hq : q ∈ s.visited
  · exact pushOne_visited_mono hq
  · rw [pushOne_push h hq]
    exact List.mem_cons_self _ _

theorem preInv_pushOne {m : Maze} {st : Pos} {s : SearchState} {cur : Pos}
    {d : Int × Int} (hd : d ∈ dirs) (hcur : cur ∈ s.visited)
    (hpi : PreInv m st s) : PreInv m st (pushOne m cur s d) := by
  rcases pushOne_cases m cur s d with he | ⟨q, htm, hq, he⟩
  · rw [he]
    exact hpi
  · rw [he]
    have hqst : q ≠ st := fun h => hq (h ▸ hpi.start_mem)
    have hqcur : q ≠ cur := fun h => hq (h ▸ hcur)
    have hstep : stepOk m cur q := ⟨d, hd, htm⟩
    have hvne : s.visited ≠ [] := by
      intro h
      rw [h] at hcur
      cases hcur
    constructor
    · intro p hp
      rcases List.mem_cons.mp hp with rfl | h1
      · exact List.mem_cons_self _ _
      · exact List.mem_cons_of_mem _ (hpi.stack_sub p h1)
    · exact List.nodup_cons.mpr ⟨fun h => hq (hpi.stack_sub q h), hpi.stack_nodup⟩
    · exact List.nodup_cons.mpr ⟨hq, hpi.visited_nodup⟩
    · exact List.mem_cons_of_mem _ hpi.start_mem
    · rw [getLast?_cons_of_ne_nil _ hvne]
      exact hpi.start_last
    · intro p hp
      rcases List.mem_cons.mp hp with rfl | h1
      · exact Reaches.tail (hpi.reach cur hcur) hstep
      · exact hpi.reach p h1
    · intro p hp
      rcases List.mem_cons.mp hp with rfl | h1
      · exact Or.inr (tryMove_bounds htm).2.2
      · exact hpi.nonwall p h1
    · have hlen := hpi.len_eq
      simp only [List.length_cons]
      omega
    · intro p hp hpst
      rcases List.mem_cons.mp hp with rfl | h1
      · simp [lookupP]
      · have hpq : q ≠ p := fun h => hq (h ▸ h1)
        simp only [lookupP, if_neg hpq]
        exact hpi.parent_total p h1 hpst
    · simp only [lookupP, if_neg hqst]
      exact hpi.start_no_parent
    · intro k w hk
      by_cases hqk : q = k
      · subst hqk
        have hk2 : cur = w := by simpa [lookupP] using hk
        subst hk2
        refine ⟨hstep, List.mem_cons_self _ _, List.mem_cons_of_mem _ hcur, ?_⟩
        rw [rankOf_cons_self, rankOf_cons_ne _ hqcur]
        omega
      · simp only [lookupP, if_neg hqk] at hk
        rcases hpi.parent_spec k w hk with ⟨h1, h2, h3, h4⟩
        have hqw : q ≠ w := fun h => hq (h ▸ h3)
        refine ⟨h1, List.mem_cons_of_mem _ h2, List.mem_cons_of_mem _ h3, ?_⟩
        rw [rankOf_cons_ne _ hqk, rankOf_cons_ne _ hqw]
        omega

theorem foldl_visited_mono {m : Maze} {cur : Pos} (l : List (Int × Int))
    {s : SearchState} {p : Pos} (h : p ∈ s.visited) :
    p ∈ (List.foldl (pushOne m cur) s l).visited := by
  induction l generalizing s with
  | nil => exact h
  | cons d t ih => exact ih (pushOne_visited_mono h)

theorem foldl_stack_mono {m : Maze} {cur : Pos} (l : List (Int × Int))
    {s : SearchState} {p : Pos} (h : p ∈ s.stack) :
    p ∈ (List.foldl (pushOne m cur) s l).stack := by
  induction l generalizing s with
  | nil => exact h
  | cons d t ih => exact ih (pushOne_stack_mono h)

theorem foldl_visited_sub {m : Maze} {cur : Pos} (l : List (Int × Int))
    {s : SearchState} {p : Pos}
    (h : p ∈ (List.foldl (pushOne m cur) s l).visited) :
    p ∈ s.visited ∨ p ∈ (List.foldl (pushOne m cur) s l).stack := by
  induction l generalizing s with
  | nil => exact Or.inl h
  | cons d t ih =>
    rcases ih h with h1 | h1
    · rcases pushOne_visited_sub h1 with h2 | h2
      · exact Or.inl h2
      · exact Or.inr (foldl_stack_mono t h2)
    · exact Or.inr h1

theorem preInv_foldl {m : Maze} {st cur : Pos} (l : List (Int × Int))
    (hl : ∀ d ∈ l, d ∈ dirs) {s : SearchState} (hcur : cur ∈ s.visited)
    (hpre : PreInv m st s) :
    PreInv m st (List.foldl (pushOne m cur) s l) := by
  induction l generalizing s with
  | nil => exact hpre
  | cons d t ih =>
    exact ih (fun x hx => hl x (List.mem_cons_of_mem _ hx))
      (pushOne_visited_mono hcur)
      (preInv_pushOne (hl d (List.mem_cons_self _ _)) hcur hpre)

theorem pushNeighbors_visited_mono {m : Maze} {cur : Pos} {s : SearchState}
    {p : Pos} (h : p ∈ s.visited) : p ∈ (pushNeighbors m cur s).visited :=
  foldl_visited_mono dirs h

theorem pushNeighbors_stack_mono {m : Maze} {cur : Pos} {s : SearchState}
    {p : Pos} (h : p ∈ s.stack) : p ∈ (pushNeighbors m cur s).stack :=
  foldl_stack_mono dirs h

theorem pushNeighbors_visited_sub {m : Maze} {cur : Pos} {s : SearchState}
    {p : Pos} (h : p ∈ (pushNeighbors m cur s).visited) :
    p ∈ s.visited ∨ p ∈ (pushNeighbors m cur s).stack :=
  foldl_visited_sub dirs h

theorem pushNeighbors_covers {m : Maze} {cur : Pos} {s : SearchState}
    {d : Int × Int} {q : Pos} (hd : d ∈ dirs) (htm : tryMove m cur d = some q) :
    q ∈ (pushNeighbors m cur s).visited := by
  simp only [dirs, List.mem_cons, List.not_mem_nil, or_false] at hd
  simp only [pushNeighbors, dirs, List.foldl_cons, List.foldl_nil]
  rcases hd with rfl | rfl | rfl | rfl
  · exact pushOne_visited_mono (pushOne_visited_mono
      (pushOne_visited_mono (pushOne_tryMove_visited htm)))
  · exact pushOne_visited_mono (pushOne_visited_mono (pushOne_tryMove_visited htm))
  · exact pushOne_visited_mono (pushOne_tryMove_visited htm)
  · exact pushOne_tryMove_visited htm

theorem inv_step {m : Maze} {st cur : Pos} {rest v : List Pos}
    {par : List (Pos × Pos)} (hInv : Inv m st ⟨cur :: rest, v, par⟩)
    (hng : cellAt m cur ≠ 'G') :
    Inv m st (pushNeighbors m cur ⟨rest, v, par⟩) := by
  have hcur : cur ∈ v := hInv.stack_sub cur (List.mem_cons_self _ _)
  have hpre0 : PreInv m st ⟨rest, v, par⟩ :=
    { stack_sub := fun p hp => hInv.stack_sub p (List.mem_cons_of_mem _ hp)
      stack_nodup := (List.nodup_cons.mp hInv.stack_nodup).2
      visited_nodup := hInv.visited_nodup
      start_mem := hInv.start_mem
      start_last := hInv.start_last
      reach := hInv.reach
      nonwall := hInv.nonwall
      len_eq := hInv.len_eq
      parent_total := hInv.parent_total
      start_no_parent := hInv.start_no_parent
      parent_spec := hInv.parent_spec }
  have hcurnr : cur ∉ rest := (List.nodup_cons.mp hInv.stack_nodup).1
  have hpre : PreInv m st (pushNeighbors m cur ⟨rest, v, par⟩) :=
    preInv_foldl dirs (fun d hd => hd) hcur hpre0
  refine ⟨hpre, ?_, ?_⟩
  · intro p hp hps q hsq
    rcases pushNeighbors_visited_sub hp with h1 | h1
    · by_cases hpc : p = cur
      · subst hpc
        rcases hsq with ⟨d, hd, htm⟩
        exact pushNeighbors_covers hd htm
      · have hpr : p ∉ rest := fun h => hps (pushNeighbors_stack_mono h)
        have hold : p ∉ cur :: rest := by
          intro h
          rcases List.mem_cons.mp h with h2 | h2
          · exact hpc h2
          · exact hpr h2
        exact pushNeighbors_visited_mono (hInv.closed p h1 hold q hsq)
    · exact absurd h1 hps
  · intro p hp hps
    rcases pushNeighbors_visited_sub hp with h1 | h1
    · by_cases hpc : p = cur
      · subst hpc
        exact hng
      · have hpr : p ∉ rest := fun h => hps (pushNeighbors_stack_mono h)
        have hold : p ∉ cur :: rest := by
          intro h
          rcases List.mem_cons.mp h with h2 | h2
          · exact hpc h2
          · exact hpr h2
        exact hInv.popped_ngoal p h1 hold
    · exact absurd h1 hps

theorem inv_init (m : Maze) (st : Pos) : Inv m st (initState st) := by
  refine ⟨⟨?_, ?_, ?_, ?_, ?_, ?_, ?_, ?_, ?_, ?_, ?_⟩, ?_, ?_⟩
  · intro p hp
    exact hp
  · exact List.nodup_singleton _
  · exact List.nodup_singleton _
  · exact List.mem_singleton_self _
  · rfl
  · intro p hp
    rcases List.mem_singleton.mp hp with rfl
    exact Reaches.refl p
  · intro p hp
    rcases List.mem_singleton.mp hp with rfl
    exact Or.inl rfl
  · rfl
  · intro p hp hpst
    rcases List.mem_singleton.mp hp with rfl
    exact absurd rfl hpst
  · rfl
  · intro k w hk
    simp [lookupP] at hk
  · intro p hp hps q hsq
    exact absurd hp hps
  · intro p hp hps
    exact absurd hp hps

theorem inv_of_reachable {m : Maze} {st : Pos} {s : SearchState}
    (h : ReachableState m st s) : Inv m st s := by
  induction h with
  | refl => exact inv_init m st
  | tail h1 h2 ih =>
    rename_i b c
    rcases h2 with ⟨cur, rest, hstk, hng, rfl⟩
    have hb : b = ⟨cur :: rest, b.visited, b.parents⟩ := by
      rcases b with ⟨bs, bv, bp⟩
      simp only at hstk
      rw [hstk]
    rw [hb] at ih
    exact inv_step ih hng

theorem pushOne_measure (m : Maze) (cur : Pos) (t : SearchState) (d : Int × Int) :
    dfsMeasure m (pushOne m cur t d) = dfsMeasure m t := by
  cases htm : tryMove m cur d with
  | none => simp [pushOne, htm]
  | some q =>
    by_cases hq : q ∈ t.visited
    · simp [pushOne, htm, hq]
    · have hb : q.1 < m.rows ∧ q.2 < m.cols := by
        rcases tryMove_bounds htm with ⟨h1, h2, _⟩
        exact ⟨h1, h2⟩
      have hqA : q ∈ allCells m := mem_allCells.mpr hb
      have hmem : q ∈ (allCells m).toFinset \ t.visited.toFinset := by
        rw [Finset.mem_sdiff]
        exact ⟨List.mem_toFinset.mpr hqA, fun hx => hq (List.mem_toFinset.mp hx)⟩
      have hcard : 0 < ((allCells m).toFinset \ t.visited.toFinset).card :=
        Finset.card_pos.mpr ⟨q, hmem⟩
      have hset : (allCells m).toFinset \ (q :: t.visited).toFinset
          = ((allCells m).toFinset \ t.visited.toFinset).erase q := by
        ext x
        simp only [List.toFinset_cons, Finset.mem_sdiff, Finset.mem_erase,
          Finset.mem_insert, List.mem_toFinset]
        tauto
      rw [pushOne_push htm hq]
      simp only [dfsMeasure]
      rw [hset, Finset.card_erase_of_mem hmem]
      simp only [List.length_cons]
      omega

theorem pushNeighbors_measure (m : Maze) (cur : Pos) (s : SearchState) :
    dfsMeasure m (pushNeighbors m cur s) = dfsMeasure m s := by
  simp only [pushNeighbors, dirs, List.foldl_cons, List.foldl_nil, pushOne_measure]

theorem chainFrom_spec {m : Maze} {st : Pos} {s : SearchState}
    (hpi : PreInv m st s) :
    ∀ fuel k, k ∈ s.visited →
      s.visited.length ≤ fuel + rankOf s.visited k + 1 →
      (chainFrom s.parents fuel k).head? = some k ∧
      (chainFrom s.parents fuel k).getLast? = some st ∧
      List.Chain' (fun a b => stepOk m b a) (chainFrom s.parents fuel k) ∧
      (chainFrom s.parents fuel k).Nodup ∧
      (∀ p ∈ chainFrom s.parents fuel k,
        p ∈ s.visited ∧ rankOf s.visited k ≤ rankOf s.visited p) ∧
      chainFrom s.parents (fuel + 1) k = chainFrom s.parents fuel k := by
  intro fuel
  induction fuel with
  | zero =>
    intro k hk hlen
    have hrank := rankOf_lt_length hk
    have hkst : k = st := by
      have hst := rankOf_getLast hpi.visited_nodup hpi.start_last
      have heq : rankOf s.visited k = rankOf s.visited st := by omega
      exact rankOf_inj hk hpi.start_mem heq
    subst hkst
    refine ⟨rfl, by simp [chainFrom], by simp [chainFrom], by simp [chainFrom], ?_, ?_⟩
    · intro p hp
      rcases List.mem_singleton.mp (by simpa [chainFrom] using hp) with rfl
      exact ⟨hk, le_refl _⟩
    · simp [chainFrom, hpi.start_no_parent]
  | succ fuel ih =>
    intro k hk hlen
    cases hlk : lookupP s.parents k with
    | none =>
      have hkst : k = st := by
        by_contra hne
        exact hpi.parent_total k hk hne hlk
      subst hkst
      refine ⟨by simp [chainFrom, hlk], by simp [chainFrom, hlk],
        by simp [chainFrom, hlk], by simp [chainFrom, hlk], ?_, ?_⟩
      · intro p hp
        rcases List.mem_singleton.mp (by simpa [chainFrom, hlk] using hp) with rfl
        exact ⟨hk, le_refl _⟩
      · simp [chainFrom, hlk]
    | some w =>
      rcases hpi.parent_spec k w hlk with ⟨hstep, hkmem, hwmem, hrank⟩
      have hlen2 : s.visited.length ≤ fuel + rankOf s.visited w + 1 := by omega
      rcases ih w hwmem hlen2 with ⟨ihh, ihl, ihc, ihn, ihm, ihf⟩
      have hchain : chainFrom s.parents (fuel + 1) k
          = k :: chainFrom s.parents fuel w := by
        simp [chainFrom, hlk]
      have hcne : chainFrom s.parents fuel w ≠ [] := by
        intro h
        rw [h] at ihh
        cases ihh
      refine ⟨by simp [hchain], ?_, ?_, ?_, ?_, ?_⟩
      · rw [hchain, getLast?_cons_of_ne_nil _ hcne]
        exact ihl
      · rw [hchain]
        refine List.chain'_cons'.mpr ⟨?_, ihc⟩
        intro y hy
        rw [ihh] at hy
        have hyw : w = y := by simpa using hy
        subst hyw
        exact hstep
      · rw [hchain]
        refine List.nodup_cons.mpr ⟨?_, ihn⟩
        intro hkm
        have := (ihm k hkm).2
        omega
      · intro p hp
        rw [hchain] at hp
        rcases List.mem_cons.mp hp with rfl | h1
        · exact ⟨hkmem, le_refl _⟩
        · rcases ihm p h1 with ⟨h2, h3⟩
          exact ⟨h2, by omega⟩
      · have h2 : chainFrom s.parents (fuel + 1 + 1) k
            = k :: chainFrom s.parents (fuel + 1) w := by
          simp [chainFrom, hlk]
        rw [h2, ihf, hchain]

theorem inv_empty_no_goal {m : Maze} {st : Pos} {v : List Pos}
    {par : List (Pos × Pos)} (hInv : Inv m st ⟨[], v, par⟩) :
    ∀ p, Reaches m st p → cellAt m p ≠ 'G' := by
  have hvis : ∀ p, Reaches m st p → p ∈ v := by
    intro p hp
    induction hp with
    | refl => exact hInv.start_mem
    | tail h1 h2 ih => exact hInv.closed _ ih (by simp) _ h2
  intro p hp
  exact hInv.popped_ngoal p (hvis p hp) (by simp)

theorem dfsLoop_none_spec {m : Maze} {st : Pos} :
    ∀ n (s : SearchState), dfsMeasure m s ≤ n → Inv m st s →
      dfsLoop m s = none → ∀ p, Reaches m st p → cellAt m p ≠ 'G' := by
  intro n
  induction n with
  | zero =>
    intro s hms hInv hdfs
    rcases s with ⟨stk, v, par⟩
    cases stk with
    | nil => exact inv_empty_no_goal hInv
    | cons cur rest =>
      exfalso
      simp only [dfsMeasure, List.length_cons] at hms
      omega
  | succ n ih =>
    intro s hms hInv hdfs
    rcases s with ⟨stk, v, par⟩
    cases stk with
    | nil => exact inv_empty_no_goal hInv
    | cons cur rest =>
      rw [dfsLoop_cons] at hdfs
      by_cases hg : cellAt m cur = 'G'
      · rw [if_pos hg] at hdfs
        cases hdfs
      · rw [if_neg hg] at hdfs
        have hm2 : dfsMeasure m (pushNeighbors m cur ⟨rest, v, par⟩) ≤ n := by
          rw [pushNeighbors_measure]
          simp only [dfsMeasure, List.length_cons] at hms ⊢
          omega
        exact ih _ hm2 (inv_step hInv hg) hdfs

theorem dfsLoop_some_spec {m : Maze} {st : Pos} :
    ∀ n (s : SearchState) (r : List Pos), dfsMeasure m s ≤ n → Inv m st s →
      dfsLoop m s = some r →
      r ≠ [] ∧ r.head? = some st ∧
      (∃ e, r.getLast? = some e ∧ cellAt m e = 'G') ∧
      List.Chain' (stepOk m) r ∧ r.Nodup ∧
      (∀ p ∈ r, Reaches m st p ∧ (p = st ∨ cellAt m p ≠ '#')) := by
  intro n
  induction n with
  | zero =>
    intro s r hms hInv hdfs
    rcases s with ⟨stk, v, par⟩
    cases stk with
    | nil =>
      rw [dfsLoop_nil] at hdfs
      cases hdfs
    | cons cur rest =>
      exfalso
      simp only [dfsMeasure, List.length_cons] at hms
      omega
  | succ n ih =>
    intro s r hms hInv hdfs
    rcases s with ⟨stk, v, par⟩
    cases stk with
    | nil =>
      rw [dfsLoop_nil] at hdfs
      cases hdfs
    | cons cur rest =>
      rw [dfsLoop_cons] at hdfs
      by_cases hg : cellAt m cur = 'G'
      · rw [if_pos hg] at hdfs
        cases hdfs
        have hcur : cur ∈ v := hInv.stack_sub cur (List.mem_cons_self _ _)
        have hfl : v.length ≤ par.length + rankOf v cur + 1 := by
          have := hInv.len_eq
          simp only at this
          omega
        rcases chainFrom_spec hInv.toPreInv par.length cur hcur hfl with
          ⟨hh, hl, hc, hn, hm, _⟩
        have hne : chainFrom par par.length cur ≠ [] := by
          intro h
          rw [h] at hh
          cases hh
        refine ⟨?_, ?_, ⟨cur, ?_, hg⟩, ?_, ?_, ?_⟩
        · unfold construct_path
          simpa using hne
        · unfold construct_path
          rw [List.head?_reverse]
          exact hl
        · unfold construct_path
          rw [List.getLast?_reverse]
          exact hh
        · unfold construct_path
          exact List.chain'_reverse.mpr hc
        · unfold construct_path
          exact List.nodup_reverse.mpr hn
        · unfold construct_path
          intro p hp
          rw [List.mem_reverse] at hp
          rcases hm p hp with ⟨h1, _⟩
          exact ⟨hInv.reach p h1, hInv.nonwall p h1⟩
      · rw [if_neg hg] at hdfs
        have hm2 : dfsMeasure m (pushNeighbors m cur ⟨rest, v, par⟩) ≤ n := by
          rw [pushNeighbors_measure]
          simp only [dfsMeasure, List.length_cons] at hms ⊢
          omega
        exact ih _ r hm2 (inv_step hInv hg) hdfs

theorem mem_of_getLast?_eq {α : Type} {l : List α} {a : α}
    (h : l.getLast? = some a) : a ∈ l := by
  rcases List.mem_getLast?_eq_getLast (show a ∈ l.getLast? from h) with ⟨hne, he⟩
  rw [he]
  exact List.getLast_mem hne

theorem readLoop_spec (lines : List String) :
    ∀ m : Maze, (readLoop lines m).rows = m.rows + lines.length ∧
      (readLoop lines m).data = m.data ++ lines.map String.data ∧
      (readLoop lines m).cols
        = (if lines = [] then m.cols else (lines.getLastD "").length) := by
  induction lines with
  | nil =>
    intro m
    refine ⟨rfl, by simp [readLoop], by simp [readLoop]⟩
  | cons line rest ih =>
    intro m
    rcases ih ⟨m.rows + 1, line.length, m.data ++ [line.data]⟩ with ⟨h1, h2, h3⟩
    refine ⟨?_, ?_, ?_⟩
    · rw [readLoop, h1]
      simp only [List.length_cons]
      omega
    · rw [readLoop, h2]
      simp
    · rw [readLoop, h3]
      cases hrest : rest with
      | nil => simp [List.getLastD]
      | cons r2 t2 =>
        have hne : (r2 :: t2) ≠ [] := by simp
        simp only [if_neg hne, reduceCtorEq, if_false]
        rw [List.getLastD_eq_getLast?, List.getLastD_eq_getLast?,
          getLast?_cons_of_ne_nil _ hne]

/-- Claim C4: given a readable source, read_maze_from_file returns a Maze
whose rows field equals the number of lines read, whose data holds one row of
characters per line in order, and whose cols field equals the character count
of the line that was read last (zero when there is no line), the single width
variable being overwritten on every line. -/
theorem C4_read_maze_shape (lines : List String) :
    (read_maze_from_file lines).rows = lines.length ∧
    (read_maze_from_file lines).data = lines.map String.data ∧
    (read_maze_from_file lines).cols = (lines.getLastD "").length := by
  rcases readLoop_spec lines ⟨0, 0, []⟩ with ⟨h1, h2, h3⟩
  refine ⟨by simpa [read_maze_from_file] using h1,
    by simpa [read_maze_from_file] using h2, ?_⟩
  unfold read_maze_from_file
  rw [h3]
  cases lines with
  | nil => simp [List.getLastD]
  | cons a t => simp

theorem classify_isSome_iff (c : Char) :
    (classifyCell c).isSome ↔ c ∈ legalSymbols := by
  unfold classifyCell legalSymbols
  split_ifs <;> simp_all

theorem classify_decode {c : Char} {t : Nat} (h : classifyCell c = some t) :
    decodeCell t = some c := by
  unfold classifyCell at h
  split_ifs at h with h1 h2 h3 h4 <;>
    first
    | (cases h; subst h1; rfl)
    | (cases h; subst h2; rfl)
    | (cases h; subst h3; rfl)
    | (cases h; subst h4; rfl)
    | (cases h)

theorem recodeRow_id {row : List Char}
    (h : ∀ c ∈ row, c ∈ legalSymbols) : recodeRow row = some row := by
  induction row with
  | nil => rfl
  | cons c rest ih =>
    have hc : c ∈ legalSymbols := h c (List.mem_cons_self _ _)
    have hcc : (classifyCell c).bind decodeCell = some c := by
      simp only [legalSymbols, List.mem_cons, List.not_mem_nil, or_false] at hc
      rcases hc with rfl | rfl | rfl | rfl <;> rfl
    have hrest := ih (fun x hx => h x (List.mem_cons_of_mem _ hx))
    simp [recodeRow, hcc, hrest]

theorem recodeGrid_id {grid : List (List Char)}
    (h : ∀ row ∈ grid, ∀ c ∈ row, c ∈ legalSymbols) :
    recodeGrid grid = some grid := by
  induction grid with
  | nil => rfl
  | cons row rest ih =>
    have h1 := recodeRow_id (h row (List.mem_cons_self _ _))
    have h2 := ih (fun r hr => h r (List.mem_cons_of_mem _ hr))
    simp [recodeGrid, h1, h2]

/-- Claim C5: the exporter's cell classification is a total bijection on the
four legal symbols, S to 0, G to 1, dot to 2, wall to 3; re-deriving each
cell's code and decoding it back reproduces any all-legal grid exactly. -/
theorem C5_classifier_bijection (grid : List (List Char))
    (hleg : ∀ row ∈ grid, ∀ c ∈ row, c ∈ legalSymbols) :
    classifyCell 'S' = some 0 ∧ classifyCell 'G' = some 1 ∧
    classifyCell '.' = some 2 ∧ classifyCell '#' = some 3 ∧
    (∀ c, (classifyCell c).isSome ↔ c ∈ legalSymbols) ∧
    (∀ c1 c2 t, classifyCell c1 = some t → classifyCell c2 = some t → c1 = c2) ∧
    (∀ c t, classifyCell c = some t → decodeCell t = some c) ∧
    recodeGrid grid = some grid := by
  refine ⟨rfl, rfl, rfl, rfl, classify_isSome_iff, ?_, fun c t h => classify_decode h,
    recodeGrid_id hleg⟩
  intro c1 c2 t h1 h2
  have d1 := classify_decode h1
  have d2 := classify_decode h2
  rw [d1] at d2
  exact Option.some_injective _ d2

theorem rowCells_none {y : Nat} {row : List Char} {c : Char} (hc : c ∈ row)
    (h : classifyCell c = none) : ∀ x, rowCells y x row = none := by
  induction row with
  | nil => cases hc
  | cons a rest ih =>
    intro x
    rcases List.mem_cons.mp hc with rfl | h1
    · simp [rowCells, h]
    · cases ha : classifyCell a with
      | none => simp [rowCells, ha]
      | some t => simp [rowCells, ha, ih h1 (x + 1)]

theorem gridCells_none {data : List (List Char)}
    (h : ∃ row ∈ data, ∃ c ∈ row, classifyCell c = none) :
    ∀ y, gridCells y data = none := by
  induction data with
  | nil =>
    rcases h with ⟨row, hmem, _⟩
    cases hmem
  | cons row rest ih =>
    intro y
    rcases h with ⟨r, hr, c, hc, hcc⟩
    rcases List.mem_cons.mp hr with rfl | h1
    · simp [gridCells, rowCells_none hc hcc 0]
    · cases hrow : rowCells y 0 row with
      | none => simp [gridCells, hrow]
      | some a => simp [gridCells, hrow, ih ⟨r, h1, c, hc, hcc⟩ (y + 1)]

/-- Claim C6: the two fatal invariant faults are abrupt and yield no partial
result: find_start fails exactly when no cell bears S, the exporter's
classifier fails exactly on a symbol outside the four legal ones, and an
illegal symbol anywhere in the grid makes create_json_file produce no
document at all. -/
theorem C6_fatal_faults :
    (∀ m : Maze, find_start m = none ↔ ∀ row ∈ m.data, ∀ c ∈ row, c ≠ 'S') ∧
    (∀ c : Char, classifyCell c = none ↔ c ∉ legalSymbols) ∧
    (∀ (w h : Nat) (m : Maze) (sol : List Pos),
      (∃ row ∈ m.data, ∃ c ∈ row, classifyCell c = none) →
      create_json_file w h m sol = none) := by
  refine ⟨?_, ?_, ?_⟩
  · intro m
    exact scanGrid_eq_none_iff
  · intro c
    rw [← classify_isSome_iff]
    cases classifyCell c <;> simp
  · intro w h m sol hbad
    unfold create_json_file
    rw [gridCells_none hbad 0]

/-- Claim C7: a search seeded at a cell whose symbol is Goal returns the
single-element route holding only that cell (the start-equals-goal edge
case), and construct_path applied to a goal with no recorded predecessor
returns exactly that goal. -/
theorem C7_start_is_goal (m : Maze) (p : Pos) (hp : cellAt m p = 'G')
    (parents : List (Pos × Pos)) (g : Pos) (hnp : lookupP parents g = none) :
    dfsLoop m (initState p) = some [p] ∧ construct_path g parents = [g] := by
  constructor
  · show dfsLoop m ⟨[p], [p], []⟩ = some [p]
    rw [dfsLoop_cons, if_pos hp]
    simp [construct_path, chainFrom]
  · unfold construct_path
    cases hl : parents.length with
    | zero => simp [chainFrom]
    | succ k => simp [chainFrom, hnp]

/-- Claim C2: solve_maze seeds a last-in-first-out frontier with the origin
(the first S-cell in top-to-bottom, left-to-right scan order), marking it
visited at enqueue time; for every popped non-goal cell it folds over the
four offsets up, down, left, right in that fixed order, and a candidate is
pushed, marked visited at push time, and recorded with the popped cell as
predecessor exactly when it is within grid bounds, not a wall, and not yet
visited. -/
theorem C2_search_mechanics (m : Maze) (hrect : Rect m) :
    (solve_maze m = (find_start m).map (fun st => dfsLoop m ⟨[st], [st], []⟩)) ∧
    (∀ p : Pos, find_start m = some p ↔
      (m.data.getD p.1 []).get? p.2 = some 'S' ∧
      (∀ j < p.2, (m.data.getD p.1 []).get? j ≠ some 'S') ∧
      (∀ i < p.1, ∀ c ∈ m.data.getD i [], c ≠ 'S')) ∧
    (∀ (cur : Pos) (rest v : List Pos) (par : List (Pos × Pos)),
      cellAt m cur ≠ 'G' →
      dfsLoop m ⟨cur :: rest, v, par⟩ =
        dfsLoop m (List.foldl (pushOne m cur) ⟨rest, v, par⟩
          [(-1, 0), (1, 0), (0, -1), (0, 1)])) ∧
    (∀ (cur : Pos) (s : SearchState) (d : Int × Int) (q : Pos),
      tryMove m cur d = some q → q ∉ s.visited →
      pushOne m cur s d = ⟨q :: s.stack, q :: s.visited, (q, cur) :: s.parents⟩) ∧
    (∀ (cur : Pos) (s : SearchState) (d : Int × Int) (q : Pos),
      tryMove m cur d = some q → q ∈ s.visited → pushOne m cur s d = s) ∧
    (∀ (cur : Pos) (s : SearchState) (d : Int × Int),
      tryMove m cur d = none → pushOne m cur s d = s) ∧
    (∀ (cur : Pos) (d : Int × Int) (q : Pos),
      tryMove m cur d = some q ↔ specEligibleMove m cur d q) ∧
    dirs = [(-1, 0), (1, 0), (0, -1), (0, 1)] := by
  refine ⟨rfl, ?_, ?_, ?_, ?_, ?_, ?_, rfl⟩
  · intro p
    exact scanGrid_eq_some_iff
  · intro cur rest v par hng
    rw [dfsLoop_cons, if_neg hng]
    rfl
  · intro cur s d q h1 h2
    exact pushOne_push h1 h2
  · intro cur s d q h1 h2
    exact pushOne_visited h1 h2
  · intro cur s d h1
    exact pushOne_none h1
  · intro cur d q
    exact tryMove_eq_some_iff

/-- Claim C3: for a maze with a start cell, solve_maze reports no route
(inner none) exactly when no goal cell is reachable from the start through
in-bounds non-wall grid-adjacent steps; this outcome is an ordinary value,
distinct from the fatal missing-start fault (outer none) — and I/O plays no
part in solve_maze at all. -/
theorem C3_none_iff_unreachable (m : Maze) (hrect : Rect m) (st : Pos)
    (hfs : find_start m = some st) :
    (solve_maze m = some none ↔
      ¬ ∃ g, Reaches m st g ∧ cellAt m g = 'G') ∧
    solve_maze m ≠ none := by
  have hsm : solve_maze m = some (dfsLoop m (initState st)) := by
    simp [solve_maze, hfs]
  constructor
  · constructor
    · intro h
      rw [hsm] at h
      have hd : dfsLoop m (initState st) = none := by simpa using h
      rintro ⟨g, hg1, hg2⟩
      exact dfsLoop_none_spec (dfsMeasure m (initState st)) _ le_rfl
        (inv_init m st) hd g hg1 hg2
    · intro h
      rw [hsm]
      cases hd : dfsLoop m (initState st) with
      | none => rfl
      | some r =>
        exfalso
        rcases dfsLoop_some_spec (dfsMeasure m (initState st)) _ r le_rfl
          (inv_init m st) hd with ⟨hne, hh, ⟨e, hl, he⟩, _, _, hmem⟩
        exact h ⟨e, (hmem e (mem_of_getLast?_eq hl)).1, he⟩
  · rw [hsm]
    simp

/-- Claim C1: for every rectangular maze with a unique start cell, a unique
goal cell, and a path of in-bounds non-wall grid-adjacent steps between them,
solve_maze returns a route that is non-empty, begins at the start cell, ends
at the goal cell, moves one unit in one axis at every consecutive pair,
repeats no position, and never stands on a wall. -/
theorem C1_solve_maze_correct (m : Maze) (hrect : Rect m) (s g : Pos)
    (hS : cellAt m s = 'S') (hG : cellAt m g = 'G')
    (huS : ∀ p ∈ allCells m, cellAt m p = 'S' → p = s)
    (huG : ∀ p ∈ allCells m, cellAt m p = 'G' → p = g)
    (hreach : Reaches m s g) :
    ∃ r, solve_maze m = some (some r) ∧ r ≠ [] ∧ r.head? = some s ∧
      r.getLast? = some g ∧ List.Chain' AdjacentPos r ∧ r.Nodup ∧
      ∀ p ∈ r, cellAt m p ≠ '#' := by
  rcases find_start_isSome hS with ⟨q, hfs, hq⟩
  have hqs : q = s := by
    refine huS q ?_ hq
    exact cellAt_mem_allCells hrect (by rw [hq]; decide)
  subst hqs
  have hsm : solve_maze m = some (dfsLoop m (initState q)) := by
    simp [solve_maze, hfs]
  cases hd : dfsLoop m (initState q) with
  | none =>
    exfalso
    exact dfsLoop_none_spec (dfsMeasure m (initState q)) _ le_rfl
      (inv_init m q) hd g hreach hG
  | some r =>
    rcases dfsLoop_some_spec (dfsMeasure m (initState q)) _ r le_rfl
      (inv_init m q) hd with ⟨hne, hh, ⟨e, hl, he⟩, hchain, hnd, hmem⟩
    have heg : e = g := by
      refine huG e ?_ he
      exact cellAt_mem_allCells hrect (by rw [he]; decide)
    rw [heg] at hl
    refine ⟨r, by rw [hsm, hd], hne, hh, hl, ?_, hnd, ?_⟩
    · exact List.Chain'.imp (fun a b hab => stepOk_adjacent hab) hchain
    · intro p hp
      rcases (hmem p hp).2 with rfl | hnw
      · rw [hq]
        decide
      · exact hnw

theorem flatMap_congr_left {α β : Type} {l : List α} {f g : α → List β}
    (h : ∀ a ∈ l, f a = g a) : l.flatMap f = l.flatMap g := by
  induction l with
  | nil => rfl
  | cons a t ih =>
    rw [List.flatMap_cons, List.flatMap_cons, h a (List.mem_cons_self _ _),
      ih (fun x hx => h x (List.mem_cons_of_mem _ hx))]

theorem getD_default_irrel {α : Type} {l : List α} {n : Nat} (d1 d2 : α)
    (h : n < l.length) : l.getD n d1 = l.getD n d2 := by
  rw [getD_as_get?, getD_as_get?, List.get?_eq_get h]
  rfl

theorem rowCells_spec (y : Nat) (row : List Char) :
    ∀ x : Nat, (∀ c ∈ row, (classifyCell c).isSome) →
    rowCells y x row = some ((List.range row.length).map
      (fun i => ⟨x + i, y, (classifyCell (row.getD i ' ')).getD 0⟩)) := by
  induction row with
  | nil =>
    intro x _
    simp [rowCells]
  | cons c rest ih =>
    intro x h
    have hc := h c (List.mem_cons_self _ _)
    rcases Option.isSome_iff_exists.mp hc with ⟨t, ht⟩
    have hrest := ih (x + 1) (fun c2 h2 => h c2 (List.mem_cons_of_mem _ h2))
    have hstep : rowCells y x (c :: rest)
        = (rowCells y (x + 1) rest).map (fun l => ⟨x, y, t⟩ :: l) := by
      simp [rowCells, ht]
    rw [hstep, hrest]
    simp only [Option.map_some']
    congr 1
    rw [List.length_cons, List.range_succ_eq_map, List.map_cons, List.map_map]
    congr 1
    · simp [ht]
    · refine List.map_congr_left ?_
      intro i hi
      simp only [Function.comp_apply, List.getD_cons_succ]
      rw [show x + 1 + i = x + (i + 1) from by omega]

theorem gridCells_spec : ∀ (data : List (List Char)) (y w : Nat),
    (∀ row ∈ data, row.length = w) →
    (∀ row ∈ data, ∀ c ∈ row, (classifyCell c).isSome) →
    gridCells y data = some ((List.range data.length).flatMap
      (fun i => (List.range w).map
        (fun x => ⟨x, y + i, (classifyCell ((data.getD i []).getD x ' ')).getD 0⟩))) := by
  intro data
  induction data with
  | nil =>
    intro y w _ _
    simp [gridCells]
  | cons row rest ih =>
    intro y w hw hleg
    have h1 := rowCells_spec y row 0 (hleg row (List.mem_cons_self _ _))
    have h2 := ih (y + 1) w (fun r hr => hw r (List.mem_cons_of_mem _ hr))
      (fun r hr => hleg r (List.mem_cons_of_mem _ hr))
    simp only [gridCells, h1, h2]
    congr 1
    rw [List.length_cons, List.range_succ_eq_map, List.flatMap_cons, List.flatMap_map]
    congr 1
    · rw [hw row (List.mem_cons_self _ _)]
      refine List.map_congr_left ?_
      intro i hi
      simp only [List.getD_cons_zero, Nat.zero_add, Nat.add_zero]
    · refine flatMap_congr_left ?_
      intro i hi
      refine List.map_congr_left ?_
      intro x hx
      simp only [Function.comp_apply, List.getD_cons_succ]
      rw [show y + 1 + i = y + (i + 1) from by omega]

/-- Claim C8: on a rectangular all-legal maze, any document
create_json_file builds (called, as the program does, with the grid's cols
and rows as width and height) has width and height equal to the grid's
dimensions, one maze entry per grid cell in row-major order carrying
x = column, y = row and the cell's classification code, and the route's
positions in order, each as x = column, y = row. -/
theorem C8_document_shape (m : Maze) (hrect : Rect m)
    (hleg : ∀ row ∈ m.data, ∀ c ∈ row, c ∈ legalSymbols)
    (sol : List Pos) (doc : MazeJson)
    (hdoc : create_json_file m.cols m.rows m sol = some doc) :
    doc.width = m.cols ∧ doc.height = m.rows ∧
    doc.maze = (List.range m.rows).flatMap (fun y => (List.range m.cols).map
      (fun x => ⟨x, y, (classifyCell (cellAt m (y, x))).getD 0⟩)) ∧
    doc.solution = sol.map (fun p => ⟨p.2, p.1⟩) := by
  unfold create_json_file at hdoc
  cases hgc : gridCells 0 m.data with
  | none =>
    rw [hgc] at hdoc
    cases hdoc
  | some cells =>
    rw [hgc] at hdoc
    cases hfs : find_start m with
    | none =>
      rw [hfs] at hdoc
      cases hdoc
    | some stp =>
      rw [hfs] at hdoc
      cases hfg : find_goal_aux m.data with
      | none =>
        rw [hfg] at hdoc
        cases hdoc
      | some gl =>
        rw [hfg] at hdoc
        cases hdoc
        refine ⟨rfl, rfl, ?_, rfl⟩
        have hspec := gridCells_spec m.data 0 m.cols (fun r hr => hrect.2 r hr)
          (fun r hr c hc => (classify_isSome_iff c).mpr (hleg r hr c hc))
        rw [hgc] at hspec
        have hcells := Option.some_injective _ hspec
        show cells = _
        rw [hcells, hrect.1]
        refine flatMap_congr_left ?_
        intro i hi
        refine List.map_congr_left ?_
        intro x hx
        have hrowlen : (m.data.getD i []).length = m.cols := by
          refine hrect.2 _ (getD_mem _ ?_)
          rw [hrect.1]
          exact List.mem_range.mp hi
        have hxlt : x < (m.data.getD i []).length := by
          rw [hrowlen]
          exact List.mem_range.mp hx
        simp only [Nat.zero_add]
        unfold cellAt
        rw [getD_default_irrel ' ' '#' hxlt]

/-- Claim C9: for a rectangular maze with exactly one S-cell and one G-cell,
when the solution passed to create_json_file is a route solve_maze returned,
the document's start field (an independent S-scan) equals the route's first
position and its goal field (an independent G-scan) equals the route's last
position, both as x = column, y = row. -/
theorem C9_start_goal_agree (m : Maze) (hrect : Rect m) (s g : Pos)
    (hS : cellAt m s = 'S') (hG : cellAt m g = 'G')
    (huS : ∀ p ∈ allCells m, cellAt m p = 'S' → p = s)
    (huG : ∀ p ∈ allCells m, cellAt m p = 'G' → p = g)
    (route : List Pos) (hroute : solve_maze m = some (some route))
    (doc : MazeJson) (hdoc : create_json_file m.cols m.rows m route = some doc) :
    ∃ a b, route.head? = some a ∧ route.getLast? = some b ∧
      doc.start = ⟨a.2, a.1⟩ ∧ doc.goal = ⟨b.2, b.1⟩ := by
  unfold solve_maze at hroute
  cases hfs : find_start m with
  | none =>
    rw [hfs] at hroute
    cases hroute
  | some stp =>
    rw [hfs] at hroute
    have hd : dfsLoop m (initState stp) = some route := by simpa using hroute
    rcases dfsLoop_some_spec (dfsMeasure m (initState stp)) _ route le_rfl
      (inv_init m stp) hd with ⟨hne, hh, ⟨e, hl, he⟩, _, _, _⟩
    have heg : e = g := by
      refine huG e ?_ he
      exact cellAt_mem_allCells hrect (by rw [he]; decide)
    unfold create_json_file at hdoc
    cases hgc : gridCells 0 m.data with
    | none =>
      rw [hgc] at hdoc
      cases hdoc
    | some cells =>
      rw [hgc, hfs] at hdoc
      cases hfg : find_goal_aux m.data with
      | none =>
        rw [hfg] at hdoc
        cases hdoc
      | some gl =>
        rw [hfg] at hdoc
        cases hdoc
        rcases gl with ⟨glx, gly⟩
        have hgl := find_goal_spec hfg
        have hcg : cellAt m (gly, glx) = 'G' := cellAt_eq_of_get? hgl
        have hglg : (gly, glx) = g := by
          refine huG _ ?_ hcg
          exact cellAt_mem_allCells hrect (by rw [hcg]; decide)
        refine ⟨stp, e, hh, hl, rfl, ?_⟩
        show (⟨glx, gly⟩ : Position) = ⟨e.2, e.1⟩
        rw [heg, ← hglg]

/-- Claim C10: in every state the search loop reaches, the predecessor map's
chains are acyclic and end at a position with no recorded predecessor (the
origin), so the backward walk of construct_path is fuel-insensitive (it
terminates) and the reconstructed path is a duplicate-free finite list
starting at the origin. -/
theorem C10_predecessor_chains (m : Maze) (st : Pos) (s : SearchState)
    (hs : ReachableState m st s) (k : Pos) (hk : k ∈ s.visited) :
    (∀ extra, chainFrom s.parents (s.parents.length + extra) k
      = chainFrom s.parents s.parents.length k) ∧
    (construct_path k s.parents).Nodup ∧
    (construct_path k s.parents).head? = some st ∧
    (chainFrom s.parents s.parents.length k).getLast? = some st ∧
    lookupP s.parents st = none := by
  have hInv := inv_of_reachable hs
  have hfl : s.visited.length ≤ s.parents.length + rankOf s.visited k + 1 := by
    have := hInv.len_eq
    omega
  have hins : ∀ extra, chainFrom s.parents (s.parents.length + extra) k
      = chainFrom s.parents s.parents.length k := by
    intro extra
    induction extra with
    | zero => rfl
    | succ e ihe =>
      have h2 : s.visited.length ≤ (s.parents.length + e) + rankOf s.visited k + 1 := by
        omega
      have h3 := (chainFrom_spec hInv.toPreInv (s.parents.length + e) k hk h2).2.2.2.2.2
      calc chainFrom s.parents (s.parents.length + (e + 1)) k
          = chainFrom s.parents ((s.parents.length + e) + 1) k := by
            rw [show s.parents.length + (e + 1) = (s.parents.length + e) + 1 from by omega]
        _ = chainFrom s.parents (s.parents.length + e) k := h3
        _ = chainFrom s.parents s.parents.length k := ihe
  rcases chainFrom_spec hInv.toPreInv s.parents.length k hk hfl with
    ⟨hh, hl, _, hn, _, _⟩
  refine ⟨hins, ?_, ?_, hl, hInv.start_no_parent⟩
  · unfold construct_path
    exact List.nodup_reverse.mpr hn
  · unfold construct_path
    rw [List.head?_reverse]
    exact hl

/-- Witness for C1 on the concrete one-row maze S G. -/
theorem C1_solve_maze_correct_witness :
    ∃ r, solve_maze ⟨1, 2, [['S', 'G']]⟩ = some (some r) ∧ r ≠ [] ∧
      r.head? = some (0, 0) ∧ r.getLast? = some (0, 1) ∧
      List.Chain' AdjacentPos r ∧ r.Nodup ∧
      ∀ p ∈ r, cellAt ⟨1, 2, [['S', 'G']]⟩ p ≠ '#' :=
  C1_solve_maze_correct ⟨1, 2, [['S', 'G']]⟩ (by decide) (0, 0) (0, 1)
    (by decide) (by decide) (by decide) (by decide)
    (Reaches.tail (Reaches.refl (0, 0)) ⟨(0, 1), by decide, by decide⟩)

/-- Witness for C2: the eligibility test, instantiated on the S G maze. -/
theorem C2_search_mechanics_witness :
    tryMove ⟨1, 2, [['S', 'G']]⟩ (0, 0) (0, 1) = some (0, 1) ↔
      specEligibleMove ⟨1, 2, [['S', 'G']]⟩ (0, 0) (0, 1) (0, 1) :=
  (C2_search_mechanics ⟨1, 2, [['S', 'G']]⟩ (by decide)).2.2.2.2.2.2.1 (0, 0) (0, 1) (0, 1)

/-- Witness for C3 on the walled maze S # G. -/
theorem C3_none_iff_unreachable_witness :
    (solve_maze ⟨1, 3, [['S', '#', 'G']]⟩ = some none ↔
      ¬ ∃ g, Reaches ⟨1, 3, [['S', '#', 'G']]⟩ (0, 0) g ∧
        cellAt ⟨1, 3, [['S', '#', 'G']]⟩ g = 'G') ∧
    solve_maze ⟨1, 3, [['S', '#', 'G']]⟩ ≠ none :=
  C3_none_iff_unreachable ⟨1, 3, [['S', '#', 'G']]⟩ (by decide) (0, 0) (by decide)

/-- Witness for C5 on a concrete all-legal grid. -/
theorem C5_classifier_bijection_witness :
    classifyCell 'S' = some 0 ∧ classifyCell 'G' = some 1 ∧
    classifyCell '.' = some 2 ∧ classifyCell '#' = some 3 ∧
    (∀ c, (classifyCell c).isSome ↔ c ∈ legalSymbols) ∧
    (∀ c1 c2 t, classifyCell c1 = some t → classifyCell c2 = some t → c1 = c2) ∧
    (∀ c t, classifyCell c = some t → decodeCell t = some c) ∧
    recodeGrid [['S', '#'], ['G', '.']] = some [['S', '#'], ['G', '.']] :=
  C5_classifier_bijection [['S', '#'], ['G', '.']] (by decide)

/-- Witness for C6: an illegal symbol makes the exporter produce nothing. -/
theorem C6_fatal_faults_witness :
    create_json_file 1 1 ⟨1, 1, [['?']]⟩ [] = none :=
  C6_fatal_faults.2.2 1 1 ⟨1, 1, [['?']]⟩ []
    ⟨['?'], by decide, '?', by decide, by decide⟩

/-- Witness for C7 on the one-cell goal maze. -/
theorem C7_start_is_goal_witness :
    dfsLoop ⟨1, 1, [['G']]⟩ (initState (0, 0)) = some [(0, 0)] ∧
    construct_path (0, 0) [] = [(0, 0)] :=
  C7_start_is_goal ⟨1, 1, [['G']]⟩ (0, 0) (by decide) [] (0, 0) (by decide)

/-- Witness for C8 on the S G maze and a concrete route. -/
theorem C8_document_shape_witness :
    (⟨2, 1, ⟨0, 0⟩, ⟨1, 0⟩, [⟨0, 0, 0⟩, ⟨1, 0, 1⟩],
      [⟨0, 0⟩, ⟨1, 0⟩]⟩ : MazeJson).width = 2 ∧
    (⟨2, 1, ⟨0, 0⟩, ⟨1, 0⟩, [⟨0, 0, 0⟩, ⟨1, 0, 1⟩],
      [⟨0, 0⟩, ⟨1, 0⟩]⟩ : MazeJson).height = 1 ∧
    (⟨2, 1, ⟨0, 0⟩, ⟨1, 0⟩, [⟨0, 0, 0⟩, ⟨1, 0, 1⟩],
      [⟨0, 0⟩, ⟨1, 0⟩]⟩ : MazeJson).maze
      = (List.range 1).flatMap (fun y => (List.range 2).map
        (fun x => ⟨x, y, (classifyCell (cellAt ⟨1, 2, [['S', 'G']]⟩ (y, x))).getD 0⟩)) ∧
    (⟨2, 1, ⟨0, 0⟩, ⟨1, 0⟩, [⟨0, 0, 0⟩, ⟨1, 0, 1⟩],
      [⟨0, 0⟩, ⟨1, 0⟩]⟩ : MazeJson).solution
      = ([(0, 0), (0, 1)] : List Pos).map (fun p => ⟨p.2, p.1⟩) :=
  C8_document_shape ⟨1, 2, [['S', 'G']]⟩ (by decide) (by decide)
    [(0, 0), (0, 1)] _ rfl

/-- Witness for C9 on the S G maze, with the route solve_maze computes. -/
theorem C9_start_goal_agree_witness :
    ∃ a b, ([(0, 0), (0, 1)] : List Pos).head? = some a ∧
      ([(0, 0), (0, 1)] : List Pos).getLast? = some b ∧
      (⟨2, 1, ⟨0, 0⟩, ⟨1, 0⟩, [⟨0, 0, 0⟩, ⟨1, 0, 1⟩],
        [⟨0, 0⟩, ⟨1, 0⟩]⟩ : MazeJson).start = ⟨a.2, a.1⟩ ∧
      (⟨2, 1, ⟨0, 0⟩, ⟨1, 0⟩, [⟨0, 0, 0⟩, ⟨1, 0, 1⟩],
        [⟨0, 0⟩, ⟨1, 0⟩]⟩ : MazeJson).goal = ⟨b.2, b.1⟩ :=
  C9_start_goal_agree ⟨1, 2, [['S', 'G']]⟩ (by decide) (0, 0) (0, 1)
    (by decide) (by decide) (by decide) (by decide) [(0, 0), (0, 1)]
    (by
      simp +decide [solve_maze, find_start, scanGrid, findSym, initState]
      rw [dfsLoop_cons]
      simp +decide [cellAt, pushNeighbors, dirs, pushOne, tryMove]
      rw [dfsLoop_cons]
      simp +decide [cellAt, construct_path, chainFrom, lookupP])
    _ rfl

/-- Witness for C10 on the state after one expansion of the S G maze. -/
theorem C10_predecessor_chains_witness :
    chainFrom [((0, 1), (0, 0))] (1 + 2) (0, 1)
      = chainFrom [((0, 1), (0, 0))] 1 (0, 1) ∧
    (construct_path (0, 1) [((0, 1), (0, 0))]).Nodup ∧
    (construct_path (0, 1) [((0, 1), (0, 0))]).head? = some (0, 0) ∧
    lookupP [((0, 1), (0, 0))] (0, 0) = none := by
  have h := C10_predecessor_chains ⟨1, 2, [['S', 'G']]⟩ (0, 0)
    ⟨[(0, 1)], [(0, 1), (0, 0)], [((0, 1), (0, 0))]⟩
    (Relation.ReflTransGen.single ⟨(0, 0), [], rfl, by decide, rfl⟩)
    (0, 1) (by decide)
  exact ⟨h.1 2, h.2.1, h.2.2.1, h.2.2.2.2⟩

end Labyrinthium
